import Mathlib

/-!
# Verification of the ChainGuard AI analysis-pipeline specification

This file embeds the data model of the smart-contract analysis and security
auditor repository (the TypeScript API types in `frontend/types`, the SQL
enums and functions in `backend/init.sql`) together with the components of
the Analysis Pipeline Orchestrator and Finding Consensus Engine that the
design document describes but the repository does not yet implement; the
latter are marked `Modelled from the spec:` in their doc comments.
Theorems at the end of the file settle the stated properties of the system
against these definitions.
-/

set_option maxHeartbeats 1000000

/-! ## Enumerations from the TypeScript API types (`frontend/types/index.ts`) -/

/-- Severity enum of the TypeScript `Finding` interface:
`'critical' | 'high' | 'medium' | 'low' | 'info'`. -/
inductive FindingSeverity where
  | critical
  | high
  | medium
  | low
  | info
deriving DecidableEq, Repr

/-- The string carried by each `FindingSeverity` value in the TypeScript union. -/
def FindingSeverity.toStr : FindingSeverity → String
  | .critical => "critical"
  | .high => "high"
  | .medium => "medium"
  | .low => "low"
  | .info => "info"

/-- Category union of the TypeScript `Finding` interface, twelve members as
declared in `frontend/types/index.ts`. -/
inductive FindingCategory where
  | access_control
  | arithmetic
  | reentrancy
  | unchecked_external_calls
  | gas_optimization
  | upgradeability
  | economic_risk
  | oracle_manipulation
  | front_running
  | liquidation
  | governance
  | other
deriving DecidableEq, Repr

/-- The string carried by each `FindingCategory` value in the TypeScript union. -/
def FindingCategory.toStr : FindingCategory → String
  | .access_control => "access_control"
  | .arithmetic => "arithmetic"
  | .reentrancy => "reentrancy"
  | .unchecked_external_calls => "unchecked_external_calls"
  | .gas_optimization => "gas_optimization"
  | .upgradeability => "upgradeability"
  | .economic_risk => "economic_risk"
  | .oracle_manipulation => "oracle_manipulation"
  | .front_running => "front_running"
  | .liquidation => "liquidation"
  | .governance => "governance"
  | .other => "other"

/-- The twelve category strings of the TypeScript `FindingCategory` union,
in declaration order. -/
def findingCategoryValues : List String :=
  ["access_control", "arithmetic", "reentrancy", "unchecked_external_calls",
   "gas_optimization", "upgradeability", "economic_risk", "oracle_manipulation",
   "front_running", "liquidation", "governance", "other"]

/-- The nine-value category vocabulary claimed by the specification
(section 3, canonical `Finding`); written from the spec's words for
comparison with the vocabulary the code actually declares. -/
def specFindingCategoryValues : List String :=
  ["access_control", "arithmetic", "reentrancy", "unchecked_external_calls",
   "oracle_manipulation", "front_running", "gas_optimization", "upgradeability",
   "other"]

/-- Profile union of the TypeScript `AnalysisRun` interface:
`'full' | 'quick' | 'delta' | 'custom'`. -/
inductive AnalysisProfile where
  | full
  | quick
  | delta
  | custom
deriving DecidableEq, Repr

/-- The string carried by each `AnalysisProfile` value in the TypeScript union. -/
def AnalysisProfile.toStr : AnalysisProfile → String
  | .full => "full"
  | .quick => "quick"
  | .delta => "delta"
  | .custom => "custom"

/-- The four profile strings of the TypeScript `AnalysisProfile` union. -/
def analysisProfileValues : List String :=
  ["full", "quick", "delta", "custom"]

/-- The SQL enum `analysis_profile` of `backend/init.sql`:
`('quick', 'standard', 'comprehensive', 'custom')`. -/
inductive SqlAnalysisProfile where
  | quick
  | standard
  | comprehensive
  | custom
deriving DecidableEq, Repr

/-- The label of each SQL `analysis_profile` enum member. -/
def SqlAnalysisProfile.toStr : SqlAnalysisProfile → String
  | .quick => "quick"
  | .standard => "standard"
  | .comprehensive => "comprehensive"
  | .custom => "custom"

/-- The four labels of the SQL `analysis_profile` enum, in declaration order. -/
def sqlAnalysisProfileValues : List String :=
  ["quick", "standard", "comprehensive", "custom"]

/-- The four profile values claimed by the specification (quick, standard,
comprehensive, custom); written from the spec's words for comparison. -/
def specAnalysisProfileValues : List String :=
  ["quick", "standard", "comprehensive", "custom"]

/-- Run status union of the TypeScript `AnalysisRun` interface:
`'pending' | 'running' | 'completed' | 'failed' | 'cancelled'`. -/
inductive RunStatus where
  | pending
  | running
  | completed
  | failed
  | cancelled
deriving DecidableEq, Repr

/-- The string carried by each `RunStatus` value in the TypeScript union. -/
def RunStatus.toStr : RunStatus → String
  | .pending => "pending"
  | .running => "running"
  | .completed => "completed"
  | .failed => "failed"
  | .cancelled => "cancelled"

/-- The five status strings of the TypeScript `RunStatus` union. -/
def runStatusValues : List String :=
  ["pending", "running", "completed", "failed", "cancelled"]

/-- The SQL enum `run_status` of `backend/init.sql`:
`('pending', 'running', 'completed', 'failed', 'cancelled', 'paused')`. -/
inductive SqlRunStatus where
  | pending
  | running
  | completed
  | failed
  | cancelled
  | paused
deriving DecidableEq, Repr

/-- The label of each SQL `run_status` enum member. -/
def SqlRunStatus.toStr : SqlRunStatus → String
  | .pending => "pending"
  | .running => "running"
  | .completed => "completed"
  | .failed => "failed"
  | .cancelled => "cancelled"
  | .paused => "paused"

/-- The six labels of the SQL `run_status` enum, in declaration order. -/
def sqlRunStatusValues : List String :=
  ["pending", "running", "completed", "failed", "cancelled", "paused"]

/-- The `Checkpoint` interface of `frontend/types/index.ts`: its only
properties are `id`, `step`, `timestamp`, `data` and `artifacts`
(the `data` payload is an opaque `any`, embedded as a string blob). -/
structure Checkpoint where
  id : String
  step : String
  timestamp : String
  data : String
  artifacts : List String
deriving DecidableEq, Repr

/-- The property names of the TypeScript `Checkpoint` interface, in
declaration order. -/
def checkpointProperties : List String :=
  ["id", "step", "timestamp", "data", "artifacts"]

/-! ## Consensus / Deduplication Engine

The repository contains only the canonical data types of the Consensus
Engine; the engine itself (spec section 4.4) is not implemented under the
repository sources, so its merge policy and output ordering are modelled
from the spec. -/

/-- Modelled from the spec: the rank of a severity in the ordered
five-level enum (`critical` highest, `info` lowest); the repository
declares the enum but no ordering function. -/
def sevRank : FindingSeverity → Nat
  | .critical => 4
  | .high => 3
  | .medium => 2
  | .low => 1
  | .info => 0

/-- Modelled from the spec: merge policy for the severity of a duplicate
group — "severity = the maximum reported across the group (never
downgrade)". The group is non-empty (head plus rest); the Consensus Engine
itself is absent from the repository sources. -/
def mergedSeverity (s : FindingSeverity) (rest : List FindingSeverity) : FindingSeverity :=
  rest.foldl (fun a b => if sevRank a < sevRank b then b else a) s

/-- Modelled from the spec: merge policy for the confidence of a duplicate
group — "confidence = `1 - prod (1 - c_i)` over contributing engines'
confidences"; the Consensus Engine itself is absent from the repository
sources. Confidences are embedded as rationals in the unit interval. -/
def mergedConfidence (cs : List ℚ) : ℚ :=
  1 - (cs.map (fun c => 1 - c)).prod

/-- Modelled from the spec: the fields of a canonical `Finding` that the
Consensus Engine's deterministic output ordering consults (severity,
combined confidence, code location file path and start line, stable
content hash). The full `Finding` interface in the repository carries
further fields that the ordering never reads. -/
structure FindingM where
  severity : FindingSeverity
  confidence : ℚ
  file_path : String
  start_line : Nat
  content_hash : String
deriving DecidableEq, Repr

/-- Modelled from the spec: the lexicographic sort key realising the output
ordering of spec section 4.4 step 4 — severity descending (negated rank),
confidence descending (negated), file path ascending, start line
ascending, content hash ascending. -/
def sortKey (f : FindingM) : Int ×ₗ ℚ ×ₗ String ×ₗ Nat ×ₗ String :=
  toLex (-(sevRank f.severity : Int),
    toLex (-f.confidence,
      toLex (f.file_path,
        toLex (f.start_line, f.content_hash))))

/-- Modelled from the spec: the total order on canonical findings used by
the Consensus Engine's final sort. -/
def consensusLE (a b : FindingM) : Prop :=
  sortKey a ≤ sortKey b

instance : DecidableRel consensusLE :=
  fun a b => inferInstanceAs (Decidable (sortKey a ≤ sortKey b))

instance : IsTotal FindingM consensusLE :=
  ⟨fun a b => le_total (sortKey a) (sortKey b)⟩

instance : IsTrans FindingM consensusLE :=
  ⟨fun _ _ _ hab hbc => le_trans hab hbc⟩

/-- Modelled from the spec: the Consensus Engine's deterministic final
ordering pass over the merged finding list. -/
def consensusSort (l : List FindingM) : List FindingM :=
  List.insertionSort consensusLE l

/-- The ordering of spec section 4.4 step 4 spelled out on the finding
fields: severity descending in the fixed enum order, then confidence
descending, then file path and start line ascending, then content hash
ascending as the final tiebreak. -/
def findingOrder (a b : FindingM) : Prop :=
  sevRank b.severity < sevRank a.severity
  ∨ (a.severity = b.severity ∧ b.confidence < a.confidence)
  ∨ (a.severity = b.severity ∧ a.confidence = b.confidence
      ∧ a.file_path < b.file_path)
  ∨ (a.severity = b.severity ∧ a.confidence = b.confidence
      ∧ a.file_path = b.file_path ∧ a.start_line < b.start_line)
  ∨ (a.severity = b.severity ∧ a.confidence = b.confidence
      ∧ a.file_path = b.file_path ∧ a.start_line = b.start_line
      ∧ a.content_hash ≤ b.content_hash)

/-! ## Checkpoint Store

The repository declares only the `Checkpoint` record of the frontend
types; the Checkpoint Store contract of spec section 6
(`put(run_id, sequence, blob)`, `getLatest(run_id)`, monotonic sequence
numbers, append-only) is not implemented under the repository sources and
is modelled from the spec. The store state for one run is the list of
persisted `(sequence, blob)` entries, newest first. -/

namespace CheckpointStore

/-- Modelled from the spec: `put(run_id, sequence, blob)` for a single
run's store. The core requires monotonic sequence numbers, so a put whose
sequence does not exceed the latest persisted one is rejected; a
successful put appends and never rewrites earlier entries. -/
def put (st : List (Nat × String)) (seq : Nat) (blob : String) :
    Option (List (Nat × String)) :=
  match st with
  | [] => some [(seq, blob)]
  | (s, b) :: rest =>
      if s < seq then some ((seq, blob) :: (s, b) :: rest) else none

/-- Modelled from the spec: `getLatest(run_id)` returns the newest
persisted `(sequence, blob)` entry, or nothing when no checkpoint exists. -/
def getLatest (st : List (Nat × String)) : Option (Nat × String) :=
  st.head?

/-- Modelled from the spec: a whole lifetime of checkpoint writes for one
run, applied in order; a rejected (non-monotonic) put leaves the store
unchanged. -/
def putMany (st : List (Nat × String)) (ops : List (Nat × String)) :
    List (Nat × String) :=
  ops.foldl
    (fun acc op =>
      match put acc op.1 op.2 with
      | some st' => st'
      | none => acc)
    st

end CheckpointStore

/-- The store invariant: entries are held newest first with strictly
decreasing sequence numbers (append-only, monotonic). -/
def StoreSorted (st : List (Nat × String)) : Prop :=
  st.Pairwise (fun a b => b.1 < a.1)

/-! ## Orchestrator: resume and per-stage execution

The Pipeline State Machine / Orchestrator of spec section 4.1 is not
implemented under the repository sources; `resume` and the fan-out stage
policy are modelled from the spec. -/

/-- Modelled from the spec: the orchestrator-side run state of spec
section 4.1, with the stage index attached to `running`/`paused` and the
final result attached to `completed`. -/
inductive OrchRunStatus where
  | pending
  | running (stage : Nat)
  | aggregating
  | completed (result : List FindingM)
  | failed
  | cancelled
  | paused (stage : Nat)

/-- Modelled from the spec: the per-run record the orchestrator consults on
`resume`: the run's state-machine status and its persisted checkpoint
log. -/
structure RunRecord where
  status : OrchRunStatus
  checkpoints : List (Nat × String)

/-- Modelled from the spec: the error taxonomy entry raised by `resume`
when no checkpoint exists for the run. -/
inductive ResumeError where
  | checkpointNotFound
deriving DecidableEq, Repr

/-- Modelled from the spec: `resume(run_id)` (spec section 4.1). On an
already-completed run it returns the existing result without re-executing
(zero adapter invocations); otherwise it loads the latest checkpoint,
failing with `CheckpointNotFoundError` if none exists, and re-enters
execution through `exec`, which returns the updated record, the produced
result and the number of adapter invocations it made. -/
def resume (exec : RunRecord → RunRecord × List FindingM × Nat) (r : RunRecord) :
    RunRecord × Except ResumeError (List FindingM) × Nat :=
  match r.status with
  | .completed res => (r, Except.ok res, 0)
  | _ =>
      match CheckpointStore.getLatest r.checkpoints with
      | none => (r, Except.error ResumeError.checkpointNotFound, 0)
      | some _ =>
          let (r', res, n) := exec r
          (r', Except.ok res, n)

/-- Modelled from the spec: the outcome of one adapter invocation inside a
stage — either a raw output blob or an `EngineError` detail (after the
adapter exhausted its retries). -/
inductive AdapterOutcome where
  | ok (output : String)
  | engineError (detail : String)
deriving DecidableEq, Repr

/-- Stage status enum of the spec's `StageResult`
(pending/running/completed/failed/skipped). -/
inductive StageStatus where
  | pending
  | running
  | completed
  | failed
  | skipped
deriving DecidableEq, Repr

/-- Modelled from the spec: the sealed outcome of one stage — its terminal
status, the successful adapters' raw outputs, and the failed adapters'
recorded errors. -/
structure StageResultM where
  status : StageStatus
  outputs : List String
  errors : List String
deriving DecidableEq, Repr

/-- Modelled from the spec: execution of a stage with a parallel fan-out
policy over the outcomes of its bound adapters — "a fan-out stage succeeds
if at least one adapter succeeds (partial results are retained, failed
adapters are recorded in StageResult.error but do not fail the stage)". -/
def runFanOutStage (outcomes : List AdapterOutcome) : StageResultM :=
  let outputs := outcomes.filterMap fun o =>
    match o with
    | .ok out => some out
    | .engineError _ => none
  let errors := outcomes.filterMap fun o =>
    match o with
    | .engineError e => some e
    | .ok _ => none
  { status := if outputs.isEmpty then StageStatus.failed else StageStatus.completed,
    outputs := outputs,
    errors := errors }

/-! ## `search_embeddings` (`backend/init.sql`)

The SQL function filters embedding rows whose cosine similarity to the
query vector (`1 - (e.vector <=> query_vector)`) exceeds the threshold,
orders them by the pgvector distance operator ascending, and limits the
row count. The pgvector `<=>` operator is external to the repository and
is embedded as an abstract distance function parameter. -/

/-- A row of the `embeddings` table as read by `search_embeddings`,
polymorphic in the vector representation. -/
structure EmbeddingRow (V : Type) where
  id : String
  text : String
  ref_type : String
  ref_id : String
  vector : V

/-- A row of the result set of `search_embeddings`:
`(id, text, ref_type, ref_id, similarity)`. -/
structure SearchHit where
  id : String
  text : String
  ref_type : String
  ref_id : String
  similarity : ℚ
deriving DecidableEq, Repr

/-- The `search_embeddings` SQL function of `backend/init.sql`: keep the
rows whose similarity `1 - dist(vector, query_vector)` is strictly greater
than `similarity_threshold` (SQL default 0.7), order them by
`vector <=> query_vector` ascending, project each onto
`(id, text, ref_type, ref_id, similarity)`, and return at most
`search_limit` rows (SQL default 10). -/
def search_embeddings {V : Type} (dist : V → V → ℚ) (embeddings : List (EmbeddingRow V))
    (query_vector : V) (search_limit : Nat) (similarity_threshold : ℚ) :
    List SearchHit :=
  ((List.insertionSort
      (fun a b => dist a.vector query_vector ≤ dist b.vector query_vector)
      (embeddings.filter fun e =>
        decide (similarity_threshold < 1 - dist e.vector query_vector))).map
    (fun e =>
      { id := e.id, text := e.text, ref_type := e.ref_type, ref_id := e.ref_id,
        similarity := 1 - dist e.vector query_vector })).take search_limit

/-! ## Theorems -/

/-- Helper: the severity rank determines the severity. -/
theorem sevRank_inj (x y : FindingSeverity) : sevRank x = sevRank y ↔ x = y := by
  cases x <;> cases y <;> simp [sevRank]

/-- C4 (counterexample): the claim that every Finding category is drawn
from the spec's nine-value vocabulary is false on the code —
`economic_risk` is a category of the TypeScript `FindingCategory` union
but lies outside the spec's nine values (so do `liquidation` and
`governance`). -/
theorem finding_category_outside_spec_nine :
    FindingCategory.economic_risk.toStr ∉ specFindingCategoryValues
    ∧ FindingCategory.liquidation.toStr ∉ specFindingCategoryValues
    ∧ FindingCategory.governance.toStr ∉ specFindingCategoryValues := by
  decide

/-- C4 (amended): every canonical Finding category is drawn from the
closed twelve-value TypeScript vocabulary `findingCategoryValues`
(access_control, arithmetic, reentrancy, unchecked_external_calls,
gas_optimization, upgradeability, economic_risk, oracle_manipulation,
front_running, liquidation, governance, other); the vocabulary is exact
(distinct categories carry distinct strings, the list repeats no value and
has twelve entries), and no category lies outside it. -/
theorem finding_category_vocabulary :
    (∀ c : FindingCategory, c.toStr ∈ findingCategoryValues)
    ∧ (∀ c d : FindingCategory, c.toStr = d.toStr → c = d)
    ∧ findingCategoryValues.Nodup ∧ findingCategoryValues.length = 12 := by
  refine ⟨?_, ?_, by decide, by decide⟩
  · intro c
    cases c <;> decide
  · intro c d h
    cases c <;> cases d <;> first | rfl | exact absurd h (by decide)

/-- C4 (witness): the vocabulary theorem applied at concrete categories. -/
theorem finding_category_vocabulary_witness :
    FindingCategory.reentrancy.toStr ∈ findingCategoryValues
    ∧ FindingCategory.other = FindingCategory.other :=
  ⟨finding_category_vocabulary.1 FindingCategory.reentrancy,
   finding_category_vocabulary.2.1 FindingCategory.other FindingCategory.other rfl⟩

/-- C5 (counterexample): the claim that every run profile lies in
{quick, standard, comprehensive, custom} is false on the TypeScript code —
`full` is a valid `AnalysisProfile` of the `AnalysisRun` interface but is
outside that set (so is `delta`), and conversely `standard` and
`comprehensive` are not TypeScript profiles at all. -/
theorem analysis_profile_outside_claimed :
    AnalysisProfile.full.toStr ∉ specAnalysisProfileValues
    ∧ AnalysisProfile.delta.toStr ∉ specAnalysisProfileValues
    ∧ "standard" ∉ analysisProfileValues
    ∧ "comprehensive" ∉ analysisProfileValues := by
  decide

/-- C5 (amended): the profile of a TypeScript `AnalysisRun` is one of
exactly the four values full, quick, delta, custom, while the SQL
`analysis_profile` enum is exactly the four values quick, standard,
comprehensive, custom (the set the claim states); the two vocabularies
disagree. -/
theorem analysis_profile_vocabulary :
    (∀ p : AnalysisProfile, p.toStr ∈ analysisProfileValues)
    ∧ (∀ p q : AnalysisProfile, p.toStr = q.toStr → p = q)
    ∧ (∀ p : SqlAnalysisProfile, p.toStr ∈ sqlAnalysisProfileValues)
    ∧ (∀ p q : SqlAnalysisProfile, p.toStr = q.toStr → p = q)
    ∧ sqlAnalysisProfileValues = specAnalysisProfileValues
    ∧ analysisProfileValues ≠ specAnalysisProfileValues := by
  refine ⟨?_, ?_, ?_, ?_, by decide, by decide⟩
  · intro p; cases p <;> decide
  · intro p q h; cases p <;> cases q <;> first | rfl | exact absurd h (by decide)
  · intro p; cases p <;> decide
  · intro p q h; cases p <;> cases q <;> first | rfl | exact absurd h (by decide)

/-- C5 (witness): the profile vocabulary theorem applied at concrete
profiles. -/
theorem analysis_profile_vocabulary_witness :
    AnalysisProfile.quick.toStr ∈ analysisProfileValues
    ∧ AnalysisProfile.delta = AnalysisProfile.delta
    ∧ SqlAnalysisProfile.standard.toStr ∈ sqlAnalysisProfileValues
    ∧ SqlAnalysisProfile.custom = SqlAnalysisProfile.custom :=
  ⟨analysis_profile_vocabulary.1 AnalysisProfile.quick,
   analysis_profile_vocabulary.2.1 AnalysisProfile.delta AnalysisProfile.delta rfl,
   analysis_profile_vocabulary.2.2.1 SqlAnalysisProfile.standard,
   analysis_profile_vocabulary.2.2.2.1 SqlAnalysisProfile.custom SqlAnalysisProfile.custom rfl⟩

/-- C6 (counterexample): the claimed state machine includes `aggregating`
and `paused` states, but `aggregating` is not a run status anywhere in
the code (neither the TypeScript `RunStatus` union nor the SQL
`run_status` enum declares it), and `paused` is absent from the
TypeScript union; nor does any code status carry a stage index. -/
theorem run_status_missing_states :
    "aggregating" ∉ runStatusValues
    ∧ "aggregating" ∉ sqlRunStatusValues
    ∧ "paused" ∉ runStatusValues := by
  decide

/-- C6 (amended): the run status vocabulary of the code is exactly
pending, running, completed, failed, cancelled in the TypeScript
`RunStatus` union, and exactly those five plus paused in the SQL
`run_status` enum; there is no aggregating state and the running state
carries no stage index. -/
theorem run_status_vocabulary :
    (∀ s : RunStatus, s.toStr ∈ runStatusValues)
    ∧ (∀ s t : RunStatus, s.toStr = t.toStr → s = t)
    ∧ (∀ s : SqlRunStatus, s.toStr ∈ sqlRunStatusValues)
    ∧ (∀ s t : SqlRunStatus, s.toStr = t.toStr → s = t)
    ∧ runStatusValues.Nodup ∧ sqlRunStatusValues.Nodup := by
  refine ⟨?_, ?_, ?_, ?_, by decide, by decide⟩
  · intro s; cases s <;> decide
  · intro s t h; cases s <;> cases t <;> first | rfl | exact absurd h (by decide)
  · intro s; cases s <;> decide
  · intro s t h; cases s <;> cases t <;> first | rfl | exact absurd h (by decide)

/-- C6 (witness): the status vocabulary theorem applied at concrete
statuses. -/
theorem run_status_vocabulary_witness :
    RunStatus.pending.toStr ∈ runStatusValues
    ∧ RunStatus.cancelled = RunStatus.cancelled
    ∧ SqlRunStatus.paused.toStr ∈ sqlRunStatusValues
    ∧ SqlRunStatus.failed = SqlRunStatus.failed :=
  ⟨run_status_vocabulary.1 RunStatus.pending,
   run_status_vocabulary.2.1 RunStatus.cancelled RunStatus.cancelled rfl,
   run_status_vocabulary.2.2.1 SqlRunStatus.paused,
   run_status_vocabulary.2.2.2.1 SqlRunStatus.failed SqlRunStatus.failed rfl⟩

/-- C7 (counterexample): the claim that checkpoints carry a sequence
number is false on the code — the TypeScript `Checkpoint` interface's
properties are exactly id, step, timestamp, data, artifacts, and no
sequence-number property of any spelling is among them. -/
theorem checkpoint_lacks_sequence_number :
    "sequence_number" ∉ checkpointProperties
    ∧ "sequence" ∉ checkpointProperties
    ∧ "seq" ∉ checkpointProperties
    ∧ "sequence_numbers" ∉ checkpointProperties := by
  decide

/-- Helper: a successful `put` appends an entry whose sequence number
strictly exceeds the previous latest one, and becomes the new latest. -/
theorem CheckpointStore.put_getLatest {st st' : List (Nat × String)} {seq : Nat}
    {blob : String} {s : Nat} {b : String}
    (hput : CheckpointStore.put st seq blob = some st')
    (hlatest : CheckpointStore.getLatest st = some (s, b)) :
    s < seq ∧ CheckpointStore.getLatest st' = some (seq, blob) := by
  cases st with
  | nil => simp [CheckpointStore.getLatest] at hlatest
  | cons hd tl =>
    obtain ⟨s0, b0⟩ := hd
    have hs0 : s0 = s ∧ b0 = b := by
      simpa [CheckpointStore.getLatest] using hlatest
    obtain ⟨rfl, rfl⟩ := hs0
    by_cases hlt : s0 < seq
    · simp only [CheckpointStore.put, if_pos hlt, Option.some.injEq] at hput
      subst hput
      exact ⟨hlt, rfl⟩
    · simp [CheckpointStore.put, hlt] at hput

/-- Helper: `put` keeps the store nonempty and never lowers the latest
sequence number, whether the put is accepted or rejected. -/
theorem CheckpointStore.putMany_getLatest_mono (ops : List (Nat × String)) :
    ∀ (st : List (Nat × String)) (s : Nat) (b : String),
      CheckpointStore.getLatest st = some (s, b) →
      ∃ s' b', CheckpointStore.getLatest (CheckpointStore.putMany st ops) = some (s', b')
        ∧ s ≤ s' := by
  induction ops with
  | nil =>
    intro st s b hlatest
    exact ⟨s, b, hlatest, le_refl s⟩
  | cons op ops ih =>
    intro st s b hlatest
    have hstep : CheckpointStore.putMany st (op :: ops) =
        CheckpointStore.putMany
          (match CheckpointStore.put st op.1 op.2 with
           | some st' => st'
           | none => st) ops := rfl
    rw [hstep]
    cases hput : CheckpointStore.put st op.1 op.2 with
    | none =>
      simp only [hput]
      exact ih st s b hlatest
    | some st' =>
      simp only [hput]
      obtain ⟨hlt, hlatest'⟩ := CheckpointStore.put_getLatest hput hlatest
      obtain ⟨s', b', hfin, hle⟩ := ih st' op.1 op.2 hlatest'
      exact ⟨s', b', hfin, le_trans (le_of_lt hlt) hle⟩

/-- Helper: `put` preserves the append-only, strictly-decreasing store
invariant. -/
theorem CheckpointStore.put_storeSorted {st st' : List (Nat × String)} {seq : Nat}
    {blob : String} (hput : CheckpointStore.put st seq blob = some st')
    (hs : StoreSorted st) : StoreSorted st' := by
  cases st with
  | nil =>
    simp [CheckpointStore.put] at hput
    subst hput
    simp [StoreSorted]
  | cons hd tl =>
    obtain ⟨s0, b0⟩ := hd
    by_cases hlt : s0 < seq
    · simp [CheckpointStore.put, hlt] at hput
      subst hput
      unfold StoreSorted at hs ⊢
      refine List.Pairwise.cons ?_ hs
      intro e he
      rcases List.mem_cons.1 he with rfl | he'
      · exact hlt
      · have := (List.pairwise_cons.1 hs).1 e he'
        exact lt_trans this hlt
    · simp [CheckpointStore.put, hlt] at hput

/-- Helper: `putMany` preserves the store invariant. -/
theorem CheckpointStore.putMany_storeSorted (ops : List (Nat × String)) :
    ∀ st : List (Nat × String), StoreSorted st →
      StoreSorted (CheckpointStore.putMany st ops) := by
  induction ops with
  | nil => intro st hs; exact hs
  | cons op ops ih =>
    intro st hs
    have hstep : CheckpointStore.putMany st (op :: ops) =
        CheckpointStore.putMany
          (match CheckpointStore.put st op.1 op.2 with
           | some st' => st'
           | none => st) ops := rfl
    rw [hstep]
    cases hput : CheckpointStore.put st op.1 op.2 with
    | none => simp only [hput]; exact ih st hs
    | some st' =>
      simp only [hput]
      exact ih st' (CheckpointStore.put_storeSorted hput hs)

/-- Helper: under the store invariant, the entry `getLatest` returns has
the greatest sequence number of all persisted entries. -/
theorem CheckpointStore.getLatest_is_max {st : List (Nat × String)} {s : Nat} {b : String}
    (hs : StoreSorted st) (hlatest : CheckpointStore.getLatest st = some (s, b)) :
    ∀ e ∈ st, e.1 ≤ s := by
  cases st with
  | nil => simp [CheckpointStore.getLatest] at hlatest
  | cons hd tl =>
    simp [CheckpointStore.getLatest] at hlatest
    subst hlatest
    intro e he
    rcases List.mem_cons.1 he with rfl | he'
    · exact le_refl _
    · exact le_of_lt ((List.pairwise_cons.1 hs).1 e he')

/-- C7 (amended): sequence numbers live in the Checkpoint Store modelled
from the spec, not in the `Checkpoint` record; across any lifetime of
checkpoint writes the sequence number observed by `getLatest` never
decreases, the append-only strictly-decreasing store invariant is
preserved, and the entry `getLatest` hands to `resume` carries the highest
persisted sequence number. -/
theorem checkpoint_sequence_monotonic (st : List (Nat × String))
    (ops : List (Nat × String)) (s : Nat) (b : String)
    (hlatest : CheckpointStore.getLatest st = some (s, b)) :
    (∃ s' b', CheckpointStore.getLatest (CheckpointStore.putMany st ops) = some (s', b')
      ∧ s ≤ s')
    ∧ (StoreSorted st → StoreSorted (CheckpointStore.putMany st ops))
    ∧ (StoreSorted st → ∀ e ∈ st, e.1 ≤ s) :=
  ⟨CheckpointStore.putMany_getLatest_mono ops st s b hlatest,
   fun hs => CheckpointStore.putMany_storeSorted ops st hs,
   fun hs => CheckpointStore.getLatest_is_max hs hlatest⟩

/-- C7 (witness): the monotonicity theorem applied to a concrete store
holding sequence 1 and a lifetime writing sequence 2. -/
theorem checkpoint_sequence_monotonic_witness :
    (∃ s' b', CheckpointStore.getLatest
        (CheckpointStore.putMany [(1, "ckpt1")] [(2, "ckpt2")]) = some (s', b') ∧ 1 ≤ s')
    ∧ (StoreSorted [(1, "ckpt1")] → StoreSorted (CheckpointStore.putMany [(1, "ckpt1")] [(2, "ckpt2")]))
    ∧ (StoreSorted [(1, "ckpt1")] → ∀ e ∈ [((1 : Nat), "ckpt1")], e.1 ≤ 1) :=
  checkpoint_sequence_monotonic [(1, "ckpt1")] [(2, "ckpt2")] 1 "ckpt1" rfl

/-- C8: `resume` is idempotent on completed runs — on a run whose status
is `completed`, calling `resume` twice in a row yields the stored result
both times, leaves the run record untouched, and makes zero adapter
invocations either time, regardless of the executor. -/
theorem resume_idempotent_on_completed
    (exec : RunRecord → RunRecord × List FindingM × Nat) (r : RunRecord)
    (res : List FindingM) (h : r.status = OrchRunStatus.completed res) :
    resume exec r = (r, Except.ok res, 0)
    ∧ resume exec (resume exec r).1 = (r, Except.ok res, 0) := by
  have h1 : resume exec r = (r, Except.ok res, 0) := by
    unfold resume
    rw [h]
  refine ⟨h1, ?_⟩
  rw [h1]
  exact h1

/-- C8 (witness): the idempotence theorem applied to a concrete completed
run and an executor that would make five adapter invocations if it ran. -/
theorem resume_idempotent_on_completed_witness :
    resume (fun r => (r, [], 5)) (⟨OrchRunStatus.completed [], [(1, "ckpt")]⟩ : RunRecord)
      = ((⟨OrchRunStatus.completed [], [(1, "ckpt")]⟩ : RunRecord), Except.ok [], 0)
    ∧ resume (fun r => (r, [], 5))
        (resume (fun r => (r, [], 5)) (⟨OrchRunStatus.completed [], [(1, "ckpt")]⟩ : RunRecord)).1
      = ((⟨OrchRunStatus.completed [], [(1, "ckpt")]⟩ : RunRecord), Except.ok [], 0) :=
  resume_idempotent_on_completed (fun r => (r, [], 5))
    (⟨OrchRunStatus.completed [], [(1, "ckpt")]⟩ : RunRecord) [] rfl

/-- C9: a parallel fan-out stage with at least one successful adapter
reaches status `completed`; every failed adapter's error is recorded in
the stage result's errors and every successful adapter's raw output is
retained in its outputs, so a failure never fails the stage. -/
theorem fanout_stage_partial_success (outcomes : List AdapterOutcome)
    (h : ∃ out, AdapterOutcome.ok out ∈ outcomes) :
    (runFanOutStage outcomes).status = StageStatus.completed
    ∧ (∀ e, AdapterOutcome.engineError e ∈ outcomes → e ∈ (runFanOutStage outcomes).errors)
    ∧ (∀ out, AdapterOutcome.ok out ∈ outcomes → out ∈ (runFanOutStage outcomes).outputs) := by
  obtain ⟨out, hout⟩ := h
  have hmem : out ∈ outcomes.filterMap fun o =>
      match o with
      | AdapterOutcome.ok o' => some o'
      | AdapterOutcome.engineError _ => none :=
    List.mem_filterMap.2 ⟨AdapterOutcome.ok out, hout, rfl⟩
  refine ⟨?_, ?_, ?_⟩
  · have hne : (outcomes.filterMap fun o =>
        match o with
        | AdapterOutcome.ok o' => some o'
        | AdapterOutcome.engineError _ => none) ≠ [] :=
      List.ne_nil_of_mem hmem
    simp only [runFanOutStage]
    rw [if_neg (by simpa [List.isEmpty_iff] using hne)]
  · intro e he
    exact List.mem_filterMap.2 ⟨AdapterOutcome.engineError e, he, rfl⟩
  · intro o ho
    exact List.mem_filterMap.2 ⟨AdapterOutcome.ok o, ho, rfl⟩

/-- C9 (witness): the spec's scenario — a stage with two parallel
adapters, one succeeding with a raw output and one failing with an
`EngineError` after exhausting retries: the stage completes, records the
error, and retains the successful output. -/
theorem fanout_stage_partial_success_witness :
    (runFanOutStage [AdapterOutcome.ok "raw", AdapterOutcome.engineError "EngineError"]).status
        = StageStatus.completed
    ∧ "EngineError" ∈ (runFanOutStage
        [AdapterOutcome.ok "raw", AdapterOutcome.engineError "EngineError"]).errors
    ∧ "raw" ∈ (runFanOutStage
        [AdapterOutcome.ok "raw", AdapterOutcome.engineError "EngineError"]).outputs :=
  ⟨(fanout_stage_partial_success _ ⟨"raw", by decide⟩).1,
   (fanout_stage_partial_success _ ⟨"raw", by decide⟩).2.1 "EngineError" (by decide),
   (fanout_stage_partial_success _ ⟨"raw", by decide⟩).2.2 "raw" (by decide)⟩

/-- Helper: the product of the residual factors `1 - c` is nonnegative
when every confidence is at most one. -/
theorem prod_oneMinus_nonneg (cs : List ℚ) (h : ∀ c ∈ cs, c ≤ 1) :
    0 ≤ (cs.map (fun c => 1 - c)).prod := by
  induction cs with
  | nil => simp
  | cons a t ih =>
    simp only [List.map_cons, List.prod_cons]
    have ha : (0 : ℚ) ≤ 1 - a := by
      have := h a (List.mem_cons_self a t)
      linarith
    have ht := ih fun c hc => h c (List.mem_cons_of_mem a hc)
    exact mul_nonneg ha ht

/-- Helper: the product of the residual factors is at most one when every
confidence lies in the unit interval. -/
theorem prod_oneMinus_le_one (cs : List ℚ) (h : ∀ c ∈ cs, 0 ≤ c ∧ c ≤ 1) :
    (cs.map (fun c => 1 - c)).prod ≤ 1 := by
  induction cs with
  | nil => simp
  | cons a t ih =>
    simp only [List.map_cons, List.prod_cons]
    have ha := h a (List.mem_cons_self a t)
    have ht := ih fun c hc => h c (List.mem_cons_of_mem a hc)
    have htn : 0 ≤ (t.map (fun c => 1 - c)).prod :=
      prod_oneMinus_nonneg t fun c hc => (h c (List.mem_cons_of_mem a hc)).2
    nlinarith

/-- Helper: the residual product is bounded by each member's own residual
factor, since all other factors lie in the unit interval. -/
theorem prod_oneMinus_le_factor (cs : List ℚ) (h : ∀ c ∈ cs, 0 ≤ c ∧ c ≤ 1) :
    ∀ c ∈ cs, (cs.map (fun x => 1 - x)).prod ≤ 1 - c := by
  induction cs with
  | nil => intro c hc; simp at hc
  | cons a t ih =>
    intro c hc
    simp only [List.map_cons, List.prod_cons]
    have ha := h a (List.mem_cons_self a t)
    have htn : 0 ≤ (t.map (fun x => 1 - x)).prod :=
      prod_oneMinus_nonneg t fun x hx => (h x (List.mem_cons_of_mem a hx)).2
    have htle : (t.map (fun x => 1 - x)).prod ≤ 1 :=
      prod_oneMinus_le_one t fun x hx => h x (List.mem_cons_of_mem a hx)
    rcases List.mem_cons.1 hc with rfl | hct
    · nlinarith
    · have hit := ih (fun x hx => h x (List.mem_cons_of_mem a hx)) c hct
      have hcb := h c (List.mem_cons_of_mem a hct)
      nlinarith

/-- Helper: the residual product is strictly positive when every
confidence is strictly below one. -/
theorem prod_oneMinus_pos (cs : List ℚ) (h : ∀ c ∈ cs, c < 1) :
    0 < (cs.map (fun c => 1 - c)).prod := by
  induction cs with
  | nil => simp
  | cons a t ih =>
    simp only [List.map_cons, List.prod_cons]
    have ha : (0 : ℚ) < 1 - a := by
      have := h a (List.mem_cons_self a t)
      linarith
    exact mul_pos ha (ih fun c hc => h c (List.mem_cons_of_mem a hc))

/-- C2: the merged confidence `1 - prod (1 - c_i)` of a duplicate group
with contributor confidences in the unit interval is at least each
individual contributor's confidence (hence at least their maximum), is
strictly below one unless some contributor reports exactly one, and on
the spec's scenario of confidences 0.6 and 0.5 equals exactly 0.8. -/
theorem merged_confidence_combination (cs : List ℚ) (h : ∀ c ∈ cs, 0 ≤ c ∧ c ≤ 1) :
    (∀ c ∈ cs, c ≤ mergedConfidence cs)
    ∧ ((∀ c ∈ cs, c ≠ 1) → mergedConfidence cs < 1)
    ∧ mergedConfidence [3/5, 1/2] = 4/5 := by
  refine ⟨?_, ?_, by norm_num [mergedConfidence]⟩
  · intro c hc
    have := prod_oneMinus_le_factor cs h c hc
    unfold mergedConfidence
    linarith
  · intro hne
    have hpos : 0 < (cs.map (fun c => 1 - c)).prod :=
      prod_oneMinus_pos cs fun c hc => lt_of_le_of_ne (h c hc).2 (hne c hc)
    unfold mergedConfidence
    linarith

/-- C2 (witness): the combination theorem applied to the spec's concrete
scenario, confidences 0.6 and 0.5. -/
theorem merged_confidence_combination_witness :
    (∀ c ∈ ([3/5, 1/2] : List ℚ), c ≤ mergedConfidence [3/5, 1/2])
    ∧ ((∀ c ∈ ([3/5, 1/2] : List ℚ), c ≠ 1) → mergedConfidence [3/5, 1/2] < 1)
    ∧ mergedConfidence [3/5, 1/2] = 4/5 :=
  merged_confidence_combination [3/5, 1/2] (by
    intro c hc
    rcases List.mem_cons.1 hc with rfl | hc'
    · norm_num
    · rcases List.mem_cons.1 hc' with rfl | hc''
      · norm_num
      · simp at hc'')

/-- Helper: the fold computing the merged severity returns a member of the
group whose rank dominates the seed's rank and every member's rank. -/
theorem mergedSeverity_spec (rest : List FindingSeverity) :
    ∀ s : FindingSeverity,
      mergedSeverity s rest ∈ s :: rest
      ∧ sevRank s ≤ sevRank (mergedSeverity s rest)
      ∧ ∀ x ∈ rest, sevRank x ≤ sevRank (mergedSeverity s rest) := by
  induction rest with
  | nil =>
    intro s
    refine ⟨List.mem_cons_self s [], le_refl _, ?_⟩
    intro x hx
    simp at hx
  | cons b t ih =>
    intro s
    have hstep : mergedSeverity s (b :: t) =
        mergedSeverity (if sevRank s < sevRank b then b else s) t := rfl
    obtain ⟨hmem, hself, hrest⟩ := ih (if sevRank s < sevRank b then b else s)
    have hsle : sevRank s ≤ sevRank (if sevRank s < sevRank b then b else s) := by
      by_cases hb : sevRank s < sevRank b
      · rw [if_pos hb]; exact le_of_lt hb
      · rw [if_neg hb]
    have hble : sevRank b ≤ sevRank (if sevRank s < sevRank b then b else s) := by
      by_cases hb : sevRank s < sevRank b
      · rw [if_pos hb]
      · rw [if_neg hb]; exact le_of_not_lt hb
    refine ⟨?_, ?_, ?_⟩
    · rw [hstep]
      rcases List.mem_cons.1 hmem with heq | hmem'
      · rw [heq]
        by_cases hb : sevRank s < sevRank b
        · rw [if_pos hb]
          exact List.mem_cons_of_mem s (List.mem_cons_self b t)
        · rw [if_neg hb]
          exact List.mem_cons_self s (b :: t)
      · exact List.mem_cons_of_mem s (List.mem_cons_of_mem b hmem')
    · rw [hstep]
      exact le_trans hsle hself
    · rw [hstep]
      intro x hx
      rcases List.mem_cons.1 hx with rfl | hxt
      · exact le_trans hble hself
      · exact hrest x hxt

/-- C3: the merged severity of a duplicate group (seed contributor `s`,
further contributors `rest`) is one of the group's reported severities and
its rank dominates every contributor's rank under the ordered severity
enum — merging never downgrades below any contributor. -/
theorem merged_severity_never_downgrades (s : FindingSeverity)
    (rest : List FindingSeverity) :
    mergedSeverity s rest ∈ s :: rest
    ∧ ∀ x ∈ s :: rest, sevRank x ≤ sevRank (mergedSeverity s rest) := by
  obtain ⟨hmem, hself, hrest⟩ := mergedSeverity_spec rest s
  refine ⟨hmem, ?_⟩
  intro x hx
  rcases List.mem_cons.1 hx with rfl | hxt
  · exact hself
  · exact hrest x hxt

/-- C3 (witness): the severity-merge theorem applied to a concrete group
reporting low and critical: the merge yields a member of the group and
never ranks below the critical contributor. -/
theorem merged_severity_never_downgrades_witness :
    mergedSeverity FindingSeverity.low [FindingSeverity.critical]
        ∈ [FindingSeverity.low, FindingSeverity.critical]
    ∧ sevRank FindingSeverity.critical
        ≤ sevRank (mergedSeverity FindingSeverity.low [FindingSeverity.critical]) :=
  ⟨(merged_severity_never_downgrades FindingSeverity.low [FindingSeverity.critical]).1,
   (merged_severity_never_downgrades FindingSeverity.low [FindingSeverity.critical]).2
     FindingSeverity.critical (by decide)⟩

/-- Helper: the lexicographic key order coincides with the spec's output
ordering spelled out field by field. -/
theorem consensusLE_iff (a b : FindingM) : consensusLE a b ↔ findingOrder a b := by
  unfold consensusLE sortKey findingOrder
  simp only [Prod.Lex.le_iff, Prod.Lex.lt_iff, neg_lt_neg_iff, neg_inj, Nat.cast_lt,
    Nat.cast_inj, sevRank_inj]
  tauto

/-- C1: the Consensus Engine's final finding list is sorted by severity
descending in the fixed enum order, then confidence descending, then file
path and start line ascending, then content hash ascending as the final
tiebreak; the output is a permutation of the merged input findings, and
two executions over identical input produce identical output lists. -/
theorem consensus_output_deterministic_order (l l' : List FindingM) (h : l' = l) :
    List.Pairwise findingOrder (consensusSort l)
    ∧ (consensusSort l).Perm l
    ∧ consensusSort l' = consensusSort l := by
  refine ⟨?_, List.perm_insertionSort consensusLE l, by rw [h]⟩
  have hs : List.Sorted consensusLE (consensusSort l) :=
    List.sorted_insertionSort consensusLE l
  exact List.Pairwise.imp (fun hab => (consensusLE_iff _ _).1 hab) hs

/-- C1 (witness): the ordering theorem applied to a concrete two-finding
input, with identical input lists supplied to both executions. -/
theorem consensus_output_deterministic_order_witness :
    List.Pairwise findingOrder (consensusSort
      [⟨FindingSeverity.low, 1/2, "Token.sol", 49, "h1"⟩,
       ⟨FindingSeverity.critical, 3/5, "Vault.sol", 7, "h2"⟩])
    ∧ (consensusSort
        [⟨FindingSeverity.low, 1/2, "Token.sol", 49, "h1"⟩,
         ⟨FindingSeverity.critical, 3/5, "Vault.sol", 7, "h2"⟩]).Perm
        [⟨FindingSeverity.low, 1/2, "Token.sol", 49, "h1"⟩,
         ⟨FindingSeverity.critical, 3/5, "Vault.sol", 7, "h2"⟩]
    ∧ consensusSort
        [⟨FindingSeverity.low, 1/2, "Token.sol", 49, "h1"⟩,
         ⟨FindingSeverity.critical, 3/5, "Vault.sol", 7, "h2"⟩]
      = consensusSort
        [⟨FindingSeverity.low, 1/2, "Token.sol", 49, "h1"⟩,
         ⟨FindingSeverity.critical, 3/5, "Vault.sol", 7, "h2"⟩] :=
  consensus_output_deterministic_order
    [⟨FindingSeverity.low, 1/2, "Token.sol", 49, "h1"⟩,
     ⟨FindingSeverity.critical, 3/5, "Vault.sol", 7, "h2"⟩]
    [⟨FindingSeverity.low, 1/2, "Token.sol", 49, "h1"⟩,
     ⟨FindingSeverity.critical, 3/5, "Vault.sol", 7, "h2"⟩] rfl

/-- C10: `search_embeddings` returns at most `search_limit` rows, every
returned row's similarity (one minus the distance of its vector to the
query vector) strictly exceeds `similarity_threshold`, and the rows are
ordered by non-increasing similarity. -/
theorem search_embeddings_correct {V : Type} (dist : V → V → ℚ)
    (embeddings : List (EmbeddingRow V)) (query_vector : V)
    (search_limit : Nat) (similarity_threshold : ℚ) :
    (search_embeddings dist embeddings query_vector search_limit similarity_threshold).length
        ≤ search_limit
    ∧ (∀ r ∈ search_embeddings dist embeddings query_vector search_limit similarity_threshold,
        similarity_threshold < r.similarity)
    ∧ (search_embeddings dist embeddings query_vector search_limit
        similarity_threshold).Pairwise (fun a b => b.similarity ≤ a.similarity) := by
  unfold search_embeddings
  refine ⟨List.length_take_le _ _, ?_, ?_⟩
  · intro r hr
    have hr' := List.take_subset search_limit _ hr
    obtain ⟨e, he, rfl⟩ := List.mem_map.1 hr'
    have hef : e ∈ embeddings.filter fun e =>
        decide (similarity_threshold < 1 - dist e.vector query_vector) :=
      (List.perm_insertionSort _ _).subset he
    have := of_decide_eq_true (List.mem_filter.1 hef).2
    simpa using this
  · have hs : List.Sorted
        (fun a b : EmbeddingRow V =>
          dist a.vector query_vector ≤ dist b.vector query_vector)
        (List.insertionSort
          (fun a b => dist a.vector query_vector ≤ dist b.vector query_vector)
          (embeddings.filter fun e =>
            decide (similarity_threshold < 1 - dist e.vector query_vector))) :=
      @List.sorted_insertionSort (EmbeddingRow V)
        (fun a b => dist a.vector query_vector ≤ dist b.vector query_vector)
        (fun a b => inferInstanceAs (Decidable (dist a.vector query_vector ≤ dist b.vector query_vector)))
        ⟨fun _ _ => le_total _ _⟩ ⟨fun _ _ _ h1 h2 => le_trans h1 h2⟩ _
    refine List.Pairwise.sublist (List.take_sublist _ _) ?_
    rw [List.pairwise_map]
    exact hs.imp fun hab => by simpa using sub_le_sub_left hab 1

/-- C10 (witness): the search theorem applied to a concrete embeddings
table, query and threshold, with the similarity bound discharged on the
returned row. -/
theorem search_embeddings_correct_witness :
    (1 : ℚ)/2
      < ((⟨"e1", "reentrancy in withdraw", "finding", "f1", 1⟩ : SearchHit)).similarity :=
  (search_embeddings_correct (fun a b => a - b)
      [⟨"e1", "reentrancy in withdraw", "finding", "f1", (0 : ℚ)⟩] 0 10 (1/2)).2.1
    _ (by
      have h : search_embeddings (fun a b : ℚ => a - b)
          [⟨"e1", "reentrancy in withdraw", "finding", "f1", (0 : ℚ)⟩] 0 10 (1/2)
          = [⟨"e1", "reentrancy in withdraw", "finding", "f1", 1⟩] := by
        simp [search_embeddings, List.insertionSort]
        norm_num
      rw [h]
      exact List.mem_singleton.2 rfl)
